import Mathlib

/-!
Verification of the Umbrella reporting CLI (src/umbrella.py).

The Python source is shallowly embedded below: pure helpers become Lean
functions, the stateful request loops become explicit recursions over the
finite list of responses the network would deliver, and Python exceptions
become `Except`/`Option` results.  Machine time (time.time) is passed in
explicitly as an integer parameter.
-/

namespace Umbrella

/-- leadsWith w s is true when the character list w is an initial segment of
s.  Building block for the substring test below. -/
def leadsWith : List Char → List Char → Bool
  | [], _ => true
  | _ :: _, [] => false
  | c :: cs, d :: ds => c = d && leadsWith cs ds

/-- hasSub w s is true when w occurs as a contiguous sublist of s. -/
def hasSub (w : List Char) : List Char → Bool
  | [] => w.isEmpty
  | c :: rest => leadsWith w (c :: rest) || hasSub w rest

/-- strContains value w models the Python expression `word in value`
(substring containment on strings). -/
def strContains (value w : String) : Bool :=
  hasSub w.data value.data

/-- is_relative_date, from src/umbrella.py lines 138-141: the value is
relative when it contains one of the five keywords. -/
def is_relative_date (value : String) : Bool :=
  (["days", "weeks", "minutes", "now", "seconds"]).any fun word =>
    strContains value word

/-- digitsVal cs is the decimal value of a nonempty all-digit character
list, and none otherwise. -/
def digitsVal (cs : List Char) : Option Nat :=
  if !cs.isEmpty && cs.all Char.isDigit then
    some (cs.foldl (fun acc c => acc * 10 + (c.toNat - 48)) 0)
  else
    none

/-- pyInt? models the Python builtin int() applied to a string: an optional
sign followed by decimal digits (surrounding whitespace and digit-group
underscores, which Python also tolerates, play no role in any claim and are
not modeled).  Returns none where Python raises ValueError. -/
def pyInt? (s : String) : Option Int :=
  match s.data with
  | '-' :: rest => (digitsVal rest).map fun n => -(n : Int)
  | '+' :: rest => (digitsVal rest).map fun n => (n : Int)
  | cs => (digitsVal cs).map fun n => (n : Int)

/-- check_date, from src/umbrella.py lines 144-153.  The parameter `now`
stands for int(time.time()); Python int(value) is modeled by pyInt?.
The Python function returns the sentinel None on invalid input (the
ValueError from int() is caught internally, nothing is raised), modeled as
`none`. -/
def check_date (now : Int) (value : String) : Option String :=
  if is_relative_date value then some value
  else
    match pyInt? value with
    | some n => if now - n ≥ 0 then some value else none
    | none => none

/-- validate_dates, from src/umbrella.py lines 156-163: raises ValueError
when exactly one of the two dates is relative, otherwise returns True. -/
def validate_dates (from_date to_date : String) : Except String Bool :=
  if is_relative_date from_date ≠ is_relative_date to_date then
    .error ("Both from_date and to_date must be either relative dates or "
      ++ "timestamps. Mixing is not allowed.")
  else
    .ok true

/-- splitCommaAux walks the characters, cutting at every comma; cur holds
the characters of the current field in reverse. -/
def splitCommaAux : List Char → List Char → List String
  | [], cur => [⟨cur.reverse⟩]
  | c :: rest, cur =>
    if c = ',' then ⟨cur.reverse⟩ :: splitCommaAux rest []
    else splitCommaAux rest (c :: cur)

/-- splitComma models the Python expression s.split built with a comma
separator: "a,b" gives ["a","b"], trailing or doubled commas give empty
fields, exactly as in Python. -/
def splitComma (s : String) : List String :=
  splitCommaAux s.data []

/-- pyStrip models the Python str.strip method with no argument: removes
leading and trailing whitespace characters (the ASCII whitespace relevant
to the claims). -/
def pyStrip (s : String) : String :=
  ⟨((s.data.dropWhile Char.isWhitespace).reverse.dropWhile Char.isWhitespace).reverse⟩

/-- lowerChar maps an ASCII upper-case letter to lower case and leaves
every other character unchanged. -/
def lowerChar (c : Char) : Char :=
  if 'A' ≤ c && c ≤ 'Z' then Char.ofNat (c.toNat + 32) else c

/-- pyLower models the Python str.lower method (ASCII range; the inputs of
every claim are ASCII). -/
def pyLower (s : String) : String :=
  ⟨s.data.map lowerChar⟩

/-- valid_verdicts, from src/umbrella.py line 218 (the Python set literal,
modeled as a list; only membership is ever used). -/
def valid_verdicts : List String := ["allowed", "blocked", "proxied"]

/-- validate_verdict, from src/umbrella.py lines 216-230.  The argument is
Option String because argparse passes None when the flag is absent; the
Python truthiness test `if verdict:` skips None and the empty string.  The
Python code builds a set of trimmed lower-cased entries and tests issubset;
membership of every entry is the same test, and is what is modeled. -/
def validate_verdict (verdict : Option String) : Except String (Option String) :=
  match verdict with
  | none => .ok none
  | some s =>
    if s.isEmpty then .ok (some s)
    else
      if (splitComma s).all (fun v => pyLower (pyStrip v) ∈ valid_verdicts) then
        .ok (some s)
      else
        .error ("Invalid verdict value(s) provided: " ++ s)

/-- paginate models the while loop of main, src/umbrella.py lines 289-316,
restricted to its data flow: pages lists the successive `data` arrays the
report endpoint returns, offset is the current offset; the result is the
accumulated data together with the offsets requested, in order.  The loop
body appends the page to the accumulator, stops when the page is shorter
than limit, and otherwise advances the offset by limit. -/
def paginate {α : Type} (limit : Nat) : List (List α) → Nat → List α × List Nat
  | [], _ => ([], [])
  | d :: rest, offset =>
    if d.length < limit then (d, [offset])
    else
      let r := paginate limit rest (offset + limit)
      (d ++ r.1, offset :: r.2)

/-- NetResult is what the network delivers for one attempt of
requests.get inside UmbrellaAPIClient.query: a JSON body, a response with
an HTTP error status (raise_for_status raises HTTPError), a connection
error, a timeout, or another request error. -/
inductive NetResult (α : Type) where
  | ok (body : α)
  | httpError (status : Nat)
  | connError
  | timeoutError
  | requestError
  deriving DecidableEq

/-- QueryOutcome is the observable result of UmbrellaAPIClient.query: a
returned body, a propagated exception, or pending (the finite response
list ran out while the code was still retrying). -/
inductive QueryOutcome (α : Type) where
  | ok (body : α)
  | raisedHttp (status : Nat)
  | raisedConn
  | raisedTimeout
  | raisedRequest
  | pending
  deriving DecidableEq

/-- query models UmbrellaAPIClient.query, src/umbrella.py lines 96-125
(the try/except block; the token handling of lines 88-92 is modeled
separately by query_token_step): net lists the successive results the
network delivers for the successive attempts.  Returns the outcome, the
sleep durations performed and the endpoints requested, in order.  On 429
the code sleeps 60 and re-issues the same request; on 503 or 504 it
sleeps 30 and re-issues; every other error is raised without retrying. -/
def query {α : Type} (endpoint : String) :
    List (NetResult α) → QueryOutcome α × List Nat × List String
  | [] => (.pending, [], [])
  | r :: rest =>
    match r with
    | .ok body => (.ok body, [], [endpoint])
    | .httpError status =>
      if status = 429 then
        let q := query endpoint rest
        (q.1, 60 :: q.2.1, endpoint :: q.2.2)
      else if status = 503 ∨ status = 504 then
        let q := query endpoint rest
        (q.1, 30 :: q.2.1, endpoint :: q.2.2)
      else (.raisedHttp status, [], [endpoint])
    | .connError => (.raisedConn, [], [endpoint])
    | .timeoutError => (.raisedTimeout, [], [endpoint])
    | .requestError => (.raisedRequest, [], [endpoint])

/-- query_token_step models lines 88-92 of src/umbrella.py together with
the success path of OAuth2Authenticator.authenticate (lines 61-76): given
the access token the token endpoint would deliver and the cached token, it
returns the cache after the call, the number of token endpoint
invocations this query performed, and the Authorization header value the
request carried. -/
def query_token_step (authTok : String) (cached : Option String) :
    Option String × Nat × String :=
  match cached with
  | none => (some authTok, 1, "Bearer " ++ authTok)
  | some t => (some t, 0, "Bearer " ++ t)

/-- runQueries performs n sequential query calls threading the cached
token, and returns the final cache, the total number of token endpoint
invocations and the Authorization headers used, in order.  No code path
in src/umbrella.py ever clears authenticator.token, so the cache is only
ever threaded through unchanged once set. -/
def runQueries (authTok : String) (cached : Option String) :
    Nat → Option String × Nat × List String
  | 0 => (cached, 0, [])
  | n + 1 =>
    let s := query_token_step authTok cached
    let r := runQueries authTok s.1 n
    (r.1, s.2.1 + r.2.1, s.2.2 :: r.2.2)

/-- ActivityEvent is the shape of one raw activity item as
DataPresenter.present_as_table reads it (src/umbrella.py lines 187-191):
each field is Option to model presence of the JSON key; identities and
policycategories are the lists of the label fields of their entries, the
only part of those objects the code reads. -/
structure ActivityEvent where
  identities : Option (List String)
  domain : Option String
  policycategories : Option (List String)
  date : Option String
  deriving DecidableEq

/-- identityOf models line 188: take the label of the first entry of
identities, defaulting to Unknown when the key is absent.  A present but
empty array makes the Python indexing [0] raise IndexError, modeled as
none. -/
def identityOf (e : ActivityEvent) : Option String :=
  match e.identities with
  | none => some "Unknown"
  | some ls => ls.head?

/-- domainOf models line 189. -/
def domainOf (e : ActivityEvent) : String :=
  e.domain.getD "N/A"

/-- categoryOf models line 190: the label of the first policy category,
defaulting to N/A when the key is absent; none models the IndexError on a
present empty array. -/
def categoryOf (e : ActivityEvent) : Option String :=
  match e.policycategories with
  | none => some "N/A"
  | some ls => ls.head?

/-- dateOf models line 191. -/
def dateOf (e : ActivityEvent) : String :=
  e.date.getD "N/A"

/-- keyOf is the grouping key of an event: its identity and domain. -/
def keyOf (e : ActivityEvent) : Option (String × String) :=
  (identityOf e).map fun iden => (iden, domainOf e)

/-- pairOf is the per-event payload folded into a group: its category
label and its date string. -/
def pairOf (e : ActivityEvent) : Option (String × String) :=
  (categoryOf e).map fun c => (c, dateOf e)

/-- Agg is the per-(identity, domain) state held across the three Python
defaultdict maps of lines 183-185: the running count, the set of category
labels (modeled as a deduplicated list in first-seen order, since Python
set iteration order is unspecified), and the running last-seen value,
which starts at the defaultdict(str) default, the empty string. -/
structure Agg where
  count : Nat
  cats : List String
  lastSeen : String
  deriving DecidableEq

/-- emptyAgg is the state of a key never seen: all three defaultdicts at
their defaults. -/
def emptyAgg : Agg := ⟨0, [], ""⟩

/-- addCat models identity_category_map[identity][domain].add(category):
adding to a set. -/
def addCat (cats : List String) (c : String) : List String :=
  if c ∈ cats then cats else cats ++ [c]

/-- ltChars is lexicographic strict comparison of character lists by code
point, the comparison Python uses on strings. -/
def ltChars : List Char → List Char → Bool
  | [], [] => false
  | [], _ :: _ => true
  | _ :: _, [] => false
  | c :: cs, d :: ds =>
    if c < d then true
    else if d < c then false
    else ltChars cs ds

/-- pyStrLt models the Python expression a < b on strings. -/
def pyStrLt (a b : String) : Bool :=
  ltChars a.data b.data

/-- maxDate models lines 195-196: keep the running value unless the new
date string compares strictly greater. -/
def maxDate (cur new : String) : String :=
  if pyStrLt cur new then new else cur

/-- aggStep folds one event into the per-key state, exactly as lines
193-196 update the three maps at the key. -/
def aggStep (a : Agg) (c dt : String) : Agg :=
  ⟨a.count + 1, addCat a.cats c, maxDate a.lastSeen dt⟩

/-- InnerMap is the insertion-ordered Python dict from domain to state. -/
abbrev InnerMap := List (String × Agg)

/-- OuterMap is the insertion-ordered Python dict from identity to its
inner dict. -/
abbrev OuterMap := List (String × InnerMap)

/-- updInner updates (or inserts at the end, as a Python dict does) the
entry of the given domain. -/
def updInner (dom c dt : String) : InnerMap → InnerMap
  | [] => [(dom, aggStep emptyAgg c dt)]
  | (d, a) :: rest =>
    if d = dom then (d, aggStep a c dt) :: rest
    else (d, a) :: updInner dom c dt rest

/-- updOuter updates (or inserts at the end) the entry of the given
identity, updating its inner dict at the given domain. -/
def updOuter (iden dom c dt : String) : OuterMap → OuterMap
  | [] => [(iden, updInner dom c dt [])]
  | (k, inner) :: rest =>
    if k = iden then (k, updInner dom c dt inner) :: rest
    else (k, inner) :: updOuter iden dom c dt rest

/-- buildMaps models the first loop of the activity branch of
DataPresenter.present_as_table (src/umbrella.py lines 187-196).  The three
defaultdict maps are threaded as one map to the combined state: they are
keyed identically and the loop body updates all three at the same key on
every iteration.  none models the IndexError raised on an event whose
identities or policycategories key holds an empty array. -/
def buildMaps : List ActivityEvent → OuterMap → Option OuterMap
  | [], m => some m
  | e :: rest, m =>
    match identityOf e, categoryOf e with
    | some iden, some cat =>
      buildMaps rest (updOuter iden (domainOf e) cat (dateOf e) m)
    | _, _ => none

/-- ActivityRow is one table row of the activity report: identity, domain,
count, the category label set (the code joins it with commas) and the
last-seen string. -/
structure ActivityRow where
  identity : String
  domain : String
  count : Nat
  category : List String
  lastSeen : String
  deriving DecidableEq

/-- rowsOf models the second loop (lines 198-204): iterate the outer dict
in insertion order, the inner dict in insertion order, emitting one row
per (identity, domain). -/
def rowsOf (m : OuterMap) : List ActivityRow :=
  m.flatMap fun p => p.2.map fun q => ⟨p.1, q.1, q.2.count, q.2.cats, q.2.lastSeen⟩

/-- present_activity is the activity branch of
DataPresenter.present_as_table (src/umbrella.py lines 182-212). -/
def present_activity (events : List ActivityEvent) : Option (List ActivityRow) :=
  (buildMaps events []).map rowsOf

/-- groupOf is the sub-list of events sharing the given key. -/
def groupOf (events : List ActivityEvent) (k : String × String) :
    List ActivityEvent :=
  events.filter fun e => keyOf e = some k

/-- lookupA is first-match association lookup, the read operation of the
insertion-ordered dict model. -/
def lookupA {β : Type} : List (String × β) → String → Option β
  | [], _ => none
  | (k, v) :: rest, x => if k = x then some v else lookupA rest x

/-- lookup2 reads the combined two-level map at an (identity, domain)
key. -/
def lookup2 (m : OuterMap) (k : String × String) : Option Agg :=
  (lookupA m k.1).bind fun inner => lookupA inner k.2

/-- applyGroup folds a list of (category, date) payloads into an optional
per-key state the way the loop body does: the first payload creates the
entry from the defaultdict defaults. -/
def applyGroup (st : Option Agg) (ps : List (String × String)) : Option Agg :=
  ps.foldl (fun acc p => some (aggStep (acc.getD emptyAgg) p.1 p.2)) st

/-- groupPairs lists the (category, date) payloads of the events of one
key, in order. -/
def groupPairs (events : List ActivityEvent) (k : String × String) :
    List (String × String) :=
  (groupOf events k).filterMap pairOf

/-- aggFold folds payloads into a definite state. -/
def aggFold (a : Agg) (ps : List (String × String)) : Agg :=
  ps.foldl (fun x p => aggStep x p.1 p.2) a

/-- WFOuter: the outer keys and every inner key list are duplicate free,
as they are for Python dicts. -/
def WFOuter (m : OuterMap) : Prop :=
  ((m.map Prod.fst).Nodup) ∧ ∀ p ∈ m, ((p.2.map Prod.fst).Nodup)

/-- firstOnly truncates the identities and policycategories arrays of an
event to their first element. -/
def firstOnly (e : ActivityEvent) : ActivityEvent :=
  { identities := e.identities.map fun ls => ls.take 1
    domain := e.domain
    policycategories := e.policycategories.map fun ls => ls.take 1
    date := e.date }

/-- digitLeading s is true when the string starts with an ASCII digit, the
shape of every timestamp string. -/
def digitLeading (s : String) : Bool :=
  match s.data with
  | [] => false
  | c :: _ => c.isDigit

/-- Category is one entry of the data array of the categories endpoint,
the three fields src/umbrella.py lines 128-135 read. -/
structure Category where
  id : Nat
  label : String
  type : String
  deriving DecidableEq

/-- dictInsert models Python dict assignment keyed by label: an existing
key is overwritten in place, a new key is appended. -/
def dictInsert : List (String × Nat) → String → Nat → List (String × Nat)
  | [], k, v => [(k, v)]
  | (k1, v1) :: rest, k, v =>
    if k1 = k then (k, v) :: rest else (k1, v1) :: dictInsert rest k v

/-- get_security_category_ids, src/umbrella.py lines 128-135: one pass
over the data array of the categories endpoint, keeping label to id for
entries whose type is security. -/
def get_security_category_ids (data : List Category) : List (String × Nat) :=
  data.foldl
    (fun m c => if c.type = "security" then dictInsert m c.label c.id else m) []

/-- securityFilter is the comma-joined id filter string built by line 282
from the values of the category map. -/
def securityFilter (data : List Category) : String :=
  String.intercalate ","
    ((get_security_category_ids data).map fun kv => toString kv.2)

/-- Endpoint distinguishes the three endpoints main can query; the query
parameters keep their literal string form from the source. -/
inductive Endpoint where
  | categories
  | deploymentStatus (params : String)
  | activity (params : String)
  deriving DecidableEq

/-- verdictTruthy models the Python truthiness test `if args.verdict:`. -/
def verdictTruthy : Option String → Bool
  | none => false
  | some s => !s.isEmpty

/-- reportParams is the params f-string of lines 291-293 and 296-298. -/
def reportParams (from_date to_date : String) (limit offset : Nat) : String :=
  "from=" ++ from_date ++ "&to=" ++ to_date ++ "&limit=" ++ toString limit
    ++ "&offset=" ++ toString offset

/-- activityParams is the params string of the activity branch, lines
296-301: the verdict is appended only when truthy, the categories filter
always. -/
def activityParams (from_date to_date : String) (verdict : Option String)
    (category_filter : String) (limit offset : Nat) : String :=
  (if verdictTruthy verdict then
      reportParams from_date to_date limit offset
        ++ ("&verdict=" ++ verdict.getD "")
    else reportParams from_date to_date limit offset)
    ++ ("&categories=" ++ category_filter)

/-- Env is the fixed behaviour of the remote API during one run: the data
array of the categories endpoint and the successive data arrays of the
report endpoint. -/
structure Env (α : Type) where
  categories : List Category
  pages : List (List α)

/-- mainRequests models the request trace of main, src/umbrella.py lines
277-316.  get_security_category_ids is called unconditionally at line 281,
before the report type is inspected, so the categories endpoint is queried
on every run; the while loop then requests report pages at offsets
stepping by the limit (modeled by paginate).  argparse restricts
report_type to deployment or activity; any other value would leave
endpoint None and the loop would return right after the categories
query. -/
def mainRequests {α : Type} (report_type from_date to_date : String)
    (verdict : Option String) (env : Env α) : List Endpoint :=
  let category_filter := securityFilter env.categories
  if report_type = "deployment" then
    Endpoint.categories :: (paginate 100 env.pages 0).2.map fun off =>
      Endpoint.deploymentStatus (reportParams from_date to_date 100 off)
  else if report_type = "activity" then
    Endpoint.categories :: (paginate 100 env.pages 0).2.map fun off =>
      Endpoint.activity
        (activityParams from_date to_date verdict category_filter 100 off)
  else [Endpoint.categories]

/-- C5: check_date returns its argument unchanged for every relative date
string and for every string parsing as an integer timestamp not greater
than the current time; on any other value (a future timestamp or a
non-integer, non-relative string) it yields the invalid outcome, which the
code realises as the sentinel None (modeled as `none`; the ValueError from
int() is caught inside the function). -/
theorem C5_check_date (now : Int) (value : String) :
    (is_relative_date value = true → check_date now value = some value)
    ∧ (∀ n : Int, pyInt? value = some n → n ≤ now →
        check_date now value = some value)
    ∧ (is_relative_date value = false →
        (∀ n : Int, pyInt? value = some n → now < n) →
        check_date now value = none) := by
  refine ⟨fun h => by simp [check_date, h], fun n hn hle => ?_, fun hr hfut => ?_⟩
  · by_cases hr : is_relative_date value
    · simp [check_date, hr]
    · simp only [check_date, hr, Bool.false_eq_true, if_false, hn]
      rw [if_pos (by omega)]
  · cases hcase : pyInt? value with
    | none => simp [check_date, hr, hcase]
    | some n =>
      have hlt := hfut n hcase
      simp only [check_date, hr, Bool.false_eq_true, if_false, hcase]
      rw [if_neg (by omega)]

/-- Witness for C5_check_date at concrete inputs. -/
theorem C5_check_date_witness :
    check_date 1700000000 "-1days" = some "-1days"
    ∧ check_date 1700000000 "1699999999" = some "1699999999"
    ∧ check_date 1700000000 "1700000001" = none
    ∧ check_date 1700000000 "garbage" = none :=
  ⟨(C5_check_date 1700000000 "-1days").1 (by decide),
   (C5_check_date 1700000000 "1699999999").2.1 1699999999 (by decide) (by decide),
   (C5_check_date 1700000000 "1700000001").2.2 (by decide) (by
      intro n hn
      rw [show pyInt? "1700000001" = some 1700000001 from by decide] at hn
      injection hn with h
      rw [← h]
      decide),
   (C5_check_date 1700000000 "garbage").2.2 (by decide) (by
      intro n hn
      rw [show pyInt? "garbage" = none from by decide] at hn
      exact absurd hn (by simp))⟩

/-- C6: validate_dates fails exactly when one of the two dates is relative
and the other is not; when the two dates have the same kind it returns
True. -/
theorem C6_validate_dates (a b : String) :
    ((∃ msg, validate_dates a b = .error msg) ↔
      ((is_relative_date a = true ∧ is_relative_date b = false)
        ∨ (is_relative_date a = false ∧ is_relative_date b = true)))
    ∧ (is_relative_date a = is_relative_date b →
        validate_dates a b = .ok true) := by
  constructor
  · cases ha : is_relative_date a <;> cases hb : is_relative_date b <;>
      simp [validate_dates, ha, hb]
  · intro h
    simp [validate_dates, h]

/-- Witness for C6_validate_dates at concrete inputs. -/
theorem C6_validate_dates_witness :
    (∃ msg, validate_dates "-1days" "1700000000" = .error msg)
    ∧ validate_dates "-1days" "now" = .ok true :=
  ⟨(C6_validate_dates "-1days" "1700000000").1.mpr (Or.inl ⟨by decide, by decide⟩),
   (C6_validate_dates "-1days" "now").2 (by decide)⟩

/-- C7: validate_verdict accepts None and the empty string as valid (no
filter), accepts exactly those comma-separated inputs whose every entry,
trimmed and lower-cased, is among allowed, blocked, proxied, and raises an
argument error on any other token. -/
theorem C7_validate_verdict :
    (validate_verdict none = .ok none)
    ∧ (validate_verdict (some "") = .ok (some ""))
    ∧ (∀ s : String, s.isEmpty = false →
        (validate_verdict (some s) = .ok (some s) ↔
          ∀ v ∈ splitComma s, pyLower (pyStrip v) ∈ valid_verdicts))
    ∧ (∀ s : String, s.isEmpty = false →
        ¬ (∀ v ∈ splitComma s, pyLower (pyStrip v) ∈ valid_verdicts) →
        validate_verdict (some s)
          = .error ("Invalid verdict value(s) provided: " ++ s)) := by
  refine ⟨rfl, rfl, fun s hs => ?_, fun s hs hbad => ?_⟩
  · by_cases hall : ∀ v ∈ splitComma s, pyLower (pyStrip v) ∈ valid_verdicts
    · simp [validate_verdict, hs, hall]
    · simp only [validate_verdict, hs, Bool.false_eq_true, if_false]
      rw [if_neg (by simpa using hall)]
      simp [hall]
  · simp only [validate_verdict, hs, Bool.false_eq_true, if_false]
    rw [if_neg (by simpa using hbad)]

/-- Witness for C7_validate_verdict at the concrete inputs named by the
spec. -/
theorem C7_validate_verdict_witness :
    validate_verdict (some "Allowed, BLOCKED") = .ok (some "Allowed, BLOCKED")
    ∧ validate_verdict (some "allow")
        = .error ("Invalid verdict value(s) provided: " ++ "allow")
    ∧ validate_verdict none = .ok none :=
  ⟨(C7_validate_verdict.2.2.1 "Allowed, BLOCKED" (by decide)).mpr (by decide),
   C7_validate_verdict.2.2.2 "allow" (by decide) (by decide),
   C7_validate_verdict.1⟩

/-- map_offset_range peels the first offset off an arithmetic-progression
offset list. -/
theorem map_offset_range (off limit n : Nat) :
    (List.range (n + 1)).map (fun k => off + k * limit)
      = off :: (List.range n).map (fun k => off + limit + k * limit) := by
  rw [List.range_succ_eq_map, List.map_cons, List.map_map]
  congr 1
  · simp
  · apply List.map_congr_left
    intro k _
    simp only [Function.comp_apply]
    rw [Nat.succ_mul]
    ring

/-- paginate on a run of full pages followed by a short page accumulates
exactly those pages and requests offsets off, off+limit, off+2*limit, ...;
everything after the short page is never requested. -/
theorem paginate_full_run {α : Type} (limit : Nat) (full : List (List α))
    (last : List α) (rest : List (List α)) (off : Nat)
    (hfull : ∀ p ∈ full, ¬ p.length < limit) (hlast : last.length < limit) :
    paginate limit (full ++ last :: rest) off
      = (full.flatten ++ last,
         (List.range (full.length + 1)).map fun k => off + k * limit) := by
  induction full generalizing off with
  | nil => simp [paginate, hlast, List.range_succ]
  | cons p ps ih =>
    have hp : ¬ p.length < limit := hfull p (by simp)
    have hrec := ih (off + limit) (fun q hq => hfull q (by simp [hq]))
    simp only [List.cons_append, paginate, if_neg hp, List.append_eq, hrec,
      List.flatten_cons, Prod.mk.injEq, List.length_cons]
    refine ⟨by rw [List.append_assoc], ?_⟩
    rw [map_offset_range off limit (ps.length + 1)]

example :
    paginate 2 [[1, 2], [3, 4], [5]] 0 = ([1, 2, 3, 4, 5], [0, 2, 4]) := by
  decide

example : paginate 2 [[1]] 0 = ([1], [0]) := by decide

/-- C2: the pagination loop of main requests offsets 0, limit, 2*limit,
... with limit fixed at 100, appends every returned data array to the
accumulator, and stops after the first response whose data length is
strictly below limit; later responses are never requested. -/
theorem C2_pagination {α : Type} (full : List (List α)) (last : List α)
    (rest : List (List α))
    (hfull : ∀ p ∈ full, ¬ p.length < 100) (hlast : last.length < 100) :
    paginate 100 (full ++ last :: rest) 0
      = ((full ++ [last]).flatten,
         (List.range (full.length + 1)).map fun k => k * 100) := by
  rw [paginate_full_run 100 full last rest 0 hfull hlast]
  simp

/-- Witness for C2_pagination: page sizes 100, 100, 37 produce exactly 3
requests at offsets 0, 100, 200 and accumulate 237 entries. -/
theorem C2_pagination_witness :
    (paginate 100 [List.replicate 100 (0 : Nat), List.replicate 100 0,
        List.replicate 37 0] 0).1.length = 237
    ∧ (paginate 100 [List.replicate 100 (0 : Nat), List.replicate 100 0,
        List.replicate 37 0] 0).2 = [0, 100, 200] := by
  have h := C2_pagination (α := Nat)
    [List.replicate 100 0, List.replicate 100 0] (List.replicate 37 0) []
    (by decide) (by decide)
  have h2 : paginate 100 [List.replicate 100 (0 : Nat), List.replicate 100 0,
      List.replicate 37 0] 0
      = (([List.replicate 100 (0 : Nat), List.replicate 100 0]
            ++ [List.replicate 37 0]).flatten,
         (List.range 3).map fun k => k * 100) := by
    simpa using h
  rw [h2]
  constructor
  · simp only [List.cons_append, List.nil_append, List.flatten_cons,
      List.flatten_nil, List.append_nil, List.length_append,
      List.length_replicate]
  · decide

/-- C4: query retries exactly the transient statuses and propagates
everything else.  A run of transient HTTP errors (429 sleeping 60, 503 or
504 sleeping 30) is retried against the same endpoint, one request per
attempt; a success returns at once; any other HTTP status and any
connection, timeout or request error is raised at once, with no retry and
no sleep. -/
theorem C4_query_retry {α : Type} (endpoint : String) (errs : List Nat)
    (htrans : ∀ s ∈ errs, s = 429 ∨ s = 503 ∨ s = 504)
    (rest : List (NetResult α)) :
    (query endpoint (errs.map NetResult.httpError ++ rest)
      = ((query endpoint rest).1,
         errs.map (fun s => if s = 429 then 60 else 30)
           ++ (query endpoint rest).2.1,
         List.replicate errs.length endpoint ++ (query endpoint rest).2.2))
    ∧ (∀ body : α, ∀ tail,
        query endpoint (.ok body :: tail) = (.ok body, [], [endpoint]))
    ∧ (∀ s, s ≠ 429 → s ≠ 503 → s ≠ 504 → ∀ tail : List (NetResult α),
        query endpoint (.httpError s :: tail)
          = (.raisedHttp s, [], [endpoint]))
    ∧ (∀ tail : List (NetResult α),
        query endpoint (.connError :: tail) = (.raisedConn, [], [endpoint]))
    ∧ (∀ tail : List (NetResult α),
        query endpoint (.timeoutError :: tail)
          = (.raisedTimeout, [], [endpoint]))
    ∧ (∀ tail : List (NetResult α),
        query endpoint (.requestError :: tail)
          = (.raisedRequest, [], [endpoint])) := by
  refine ⟨?_, fun body tail => rfl, fun s h1 h2 h3 tail => ?_, fun tail => rfl,
    fun tail => rfl, fun tail => rfl⟩
  · induction errs with
    | nil => simp
    | cons s ss ih =>
      have hss := ih (fun x hx => htrans x (by simp [hx]))
      rcases htrans s (by simp) with rfl | rfl | rfl
      · simp only [List.map_cons, List.cons_append, query, if_pos rfl,
          List.append_eq]
        rw [hss]
        simp [List.replicate_succ]
      · simp only [List.map_cons, List.cons_append, query, List.append_eq]
        rw [if_neg (by decide), if_pos (by simp), hss]
        simp [List.replicate_succ]
      · simp only [List.map_cons, List.cons_append, query, List.append_eq]
        rw [if_neg (by decide), if_pos (by simp), hss]
        simp [List.replicate_succ]
  · simp only [query]
    rw [if_neg h1, if_neg (by simp [h2, h3])]

/-- Witness for C4_query_retry: two transient errors then a success make
three requests to the same endpoint with sleeps 60 and 30; a 500 is
raised at once. -/
theorem C4_query_retry_witness :
    query "activity?x" [NetResult.httpError 429, .httpError 503,
        .ok (7 : Nat)]
      = (.ok 7, [60, 30], ["activity?x", "activity?x", "activity?x"])
    ∧ query "activity?x" [NetResult.httpError 500, .ok (7 : Nat)]
      = (.raisedHttp 500, [], ["activity?x"]) := by
  have h := C4_query_retry (α := Nat) "activity?x" [429, 503]
    (by decide) [.ok 7]
  exact ⟨by simpa using h.1,
    h.2.2.1 500 (by decide) (by decide) (by decide) [.ok 7]⟩

/-- runQueries starting from a populated cache never touches the token
endpoint and reuses the cached token in every Authorization header. -/
theorem runQueries_cached (authTok t : String) (n : Nat) :
    runQueries authTok (some t) n
      = (some t, 0, List.replicate n ("Bearer " ++ t)) := by
  induction n with
  | zero => rfl
  | succ m ih => simp [runQueries, query_token_step, ih, List.replicate_succ]

/-- C8: across any number of sequential query calls starting with an empty
cache, the token endpoint is invoked exactly once, on the first query, and
every query (the first included) sends the Authorization header built from
that one token. -/
theorem C8_token_single_fetch (authTok : String) (n : Nat) (hn : 1 ≤ n) :
    runQueries authTok none n
      = (some authTok, 1, List.replicate n ("Bearer " ++ authTok)) := by
  cases n with
  | zero => omega
  | succ m =>
    simp [runQueries, query_token_step, runQueries_cached,
      List.replicate_succ]

/-- Witness for C8_token_single_fetch at three sequential queries. -/
theorem C8_token_single_fetch_witness :
    runQueries "tok" none 3
      = (some "tok", 1, List.replicate 3 ("Bearer " ++ "tok")) :=
  C8_token_single_fetch "tok" 3 (by decide)

example :
    present_activity
      [⟨some ["alice"], some "example.com", some ["Malware"], some "2024-01-01"⟩,
       ⟨some ["alice"], some "example.com", some ["Phishing"], some "2024-01-05"⟩]
      = some [⟨"alice", "example.com", 2, ["Malware", "Phishing"], "2024-01-05"⟩] := by
  decide

example :
    present_activity
      [⟨none, none, none, none⟩,
       ⟨some ["alice"], none, some ["Malware"], some "2024-01-01"⟩,
       ⟨none, none, none, some "2024-02-02"⟩]
      = some [⟨"Unknown", "N/A", 2, ["N/A"], "N/A"⟩,
              ⟨"alice", "N/A", 1, ["Malware"], "2024-01-01"⟩] := by
  decide

example : present_activity [⟨some [], none, none, none⟩] = none := by decide

/-- ltChars agrees with the Mathlib strict order on character lists. -/
theorem ltChars_iff : ∀ cs ds : List Char, ltChars cs ds = true ↔ cs < ds
  | [], [] => by
    simp only [ltChars]
    constructor
    · intro h; exact absurd h (by decide)
    · intro h; cases h
  | [], d :: ds => by
    simp only [ltChars]
    exact ⟨fun _ => List.Lex.nil, fun _ => trivial⟩
  | c :: cs, [] => by
    simp only [ltChars]
    constructor
    · intro h; exact absurd h (by decide)
    · intro h; cases h
  | c :: cs, d :: ds => by
    simp only [ltChars]
    by_cases h1 : c < d
    · simp only [if_pos h1]
      exact ⟨fun _ => List.Lex.rel h1, fun _ => trivial⟩
    · rw [if_neg h1]
      by_cases h2 : d < c
      · simp only [if_pos h2]
        constructor
        · intro h; exact absurd h (by decide)
        · intro h
          cases h with
          | rel h => exact absurd h h1
          | cons h => exact absurd h2 (lt_irrefl c)
      · rw [if_neg h2]
        have hcd : c = d := le_antisymm (le_of_not_lt h2) (le_of_not_lt h1)
        subst hcd
        rw [ltChars_iff cs ds]
        constructor
        · exact fun h => List.Lex.cons h
        · intro h
          cases h with
          | rel h => exact absurd h h1
          | cons h => exact h

/-- pyStrLt agrees with the Mathlib strict order on strings. -/
theorem pyStrLt_iff (a b : String) : pyStrLt a b = true ↔ a < b := by
  rw [String.lt_iff_toList_lt]
  exact ltChars_iff a.data b.data

/-- maxDate keeps its first argument as a lower bound. -/
theorem le_maxDate_left (a b : String) : a ≤ maxDate a b := by
  unfold maxDate
  by_cases h : pyStrLt a b
  · rw [if_pos h]
    exact le_of_lt ((pyStrLt_iff a b).mp h)
  · rw [if_neg h]

/-- maxDate keeps its second argument as a lower bound. -/
theorem le_maxDate_right (a b : String) : b ≤ maxDate a b := by
  unfold maxDate
  by_cases h : pyStrLt a b
  · rw [if_pos h]
  · rw [if_neg h]
    exact le_of_not_lt (fun hc => h ((pyStrLt_iff a b).mpr hc))

/-- maxDate returns one of its two arguments. -/
theorem maxDate_eq_or (a b : String) : maxDate a b = a ∨ maxDate a b = b := by
  unfold maxDate
  by_cases h : pyStrLt a b
  · rw [if_pos h]; exact Or.inr rfl
  · rw [if_neg h]; exact Or.inl rfl

/-- updInner updates the looked-up entry at the updated domain. -/
theorem lookupA_updInner_self (dom c dt : String) (l : InnerMap) :
    lookupA (updInner dom c dt l) dom
      = some (aggStep ((lookupA l dom).getD emptyAgg) c dt) := by
  induction l with
  | nil => simp [updInner, lookupA]
  | cons p rest ih =>
    obtain ⟨d, a⟩ := p
    by_cases h : d = dom
    · subst h
      simp [updInner, lookupA]
    · simp [updInner, lookupA, h, ih]

/-- updInner leaves every other domain entry unchanged. -/
theorem lookupA_updInner_other (dom c dt d2 : String) (l : InnerMap)
    (h : d2 ≠ dom) :
    lookupA (updInner dom c dt l) d2 = lookupA l d2 := by
  induction l with
  | nil => simp [updInner, lookupA, Ne.symm h]
  | cons p rest ih =>
    obtain ⟨d, a⟩ := p
    by_cases hd : d = dom
    · subst hd
      simp [updInner, lookupA, Ne.symm h]
    · by_cases hd2 : d = d2
      · simp [updInner, lookupA, hd, hd2, h]
      · simp [updInner, lookupA, hd, hd2, ih]

/-- updOuter updates the looked-up entry at the updated identity. -/
theorem lookupA_updOuter_self (iden dom c dt : String) (m : OuterMap) :
    lookupA (updOuter iden dom c dt m) iden
      = some (updInner dom c dt ((lookupA m iden).getD [])) := by
  induction m with
  | nil => simp [updOuter, lookupA]
  | cons p rest ih =>
    obtain ⟨k, inner⟩ := p
    by_cases h : k = iden
    · subst h
      simp [updOuter, lookupA]
    · simp [updOuter, lookupA, h, ih]

/-- updOuter leaves every other identity entry unchanged. -/
theorem lookupA_updOuter_other (iden dom c dt k : String) (m : OuterMap)
    (h : k ≠ iden) :
    lookupA (updOuter iden dom c dt m) k = lookupA m k := by
  induction m with
  | nil => simp [updOuter, lookupA, Ne.symm h]
  | cons p rest ih =>
    obtain ⟨k1, inner⟩ := p
    by_cases hk1 : k1 = iden
    · subst hk1
      simp [updOuter, lookupA, Ne.symm h]
    · by_cases hk2 : k1 = k
      · simp [updOuter, lookupA, hk1, hk2, h]
      · simp [updOuter, lookupA, hk1, hk2, ih]

/-- lookupA on an optional inner map with the empty default commutes with
bind. -/
theorem lookupA_getD_nil (o : Option InnerMap) (x : String) :
    lookupA (o.getD []) x = o.bind fun inner => lookupA inner x := by
  cases o <;> rfl

/-- lookup2 after updOuter: the updated key folds one more event into its
state, every other key is untouched. -/
theorem lookup2_updOuter (iden dom c dt : String) (m : OuterMap)
    (k : String × String) :
    lookup2 (updOuter iden dom c dt m) k
      = if k = (iden, dom)
          then some (aggStep ((lookup2 m k).getD emptyAgg) c dt)
          else lookup2 m k := by
  obtain ⟨k1, k2⟩ := k
  by_cases h1 : k1 = iden
  · subst h1
    simp only [lookup2, lookupA_updOuter_self, Option.some_bind]
    by_cases h2 : k2 = dom
    · subst h2
      rw [lookupA_updInner_self, if_pos rfl, lookupA_getD_nil]
    · rw [lookupA_updInner_other _ _ _ _ _ h2, lookupA_getD_nil,
        if_neg (by simp [h2])]
  · simp only [lookup2, lookupA_updOuter_other _ _ _ _ _ _ h1]
    rw [if_neg (by simp [h1])]

/-- applyGroup from a definite state is a plain fold. -/
theorem applyGroup_some (a : Agg) (ps : List (String × String)) :
    applyGroup (some a) ps = some (aggFold a ps) := by
  induction ps generalizing a with
  | nil => rfl
  | cons p ps ih =>
    show applyGroup (some (aggStep a p.1 p.2)) ps = _
    rw [ih]
    rfl

/-- applyGroup from the absent state: none for no payloads, the fold from
the defaults otherwise. -/
theorem applyGroup_none (ps : List (String × String)) :
    applyGroup none ps
      = if ps.isEmpty then none else some (aggFold emptyAgg ps) := by
  cases ps with
  | nil => rfl
  | cons p ps =>
    show applyGroup (some (aggStep emptyAgg p.1 p.2)) ps = _
    rw [applyGroup_some]
    rfl

/-- buildMaps invariant: after processing the events, the state at any key
is the fold of the payloads of the events carrying that key, applied on
top of whatever the map already held. -/
theorem buildMaps_lookup : ∀ (events : List ActivityEvent) (m m2 : OuterMap),
    buildMaps events m = some m2 → ∀ k : String × String,
    lookup2 m2 k = applyGroup (lookup2 m k) (groupPairs events k)
  | [], m, m2, h, k => by
    simp only [buildMaps, Option.some.injEq] at h
    subst h
    simp [groupPairs, groupOf, applyGroup]
  | e :: rest, m, m2, h, k => by
    cases hi : identityOf e with
    | none => simp [buildMaps, hi] at h
    | some iden =>
      cases hc : categoryOf e with
      | none => simp [buildMaps, hi, hc] at h
      | some cat =>
        have h2 : buildMaps rest
            (updOuter iden (domainOf e) cat (dateOf e) m) = some m2 := by
          simpa [buildMaps, hi, hc] using h
        have ih := buildMaps_lookup rest _ m2 h2 k
        rw [ih, lookup2_updOuter]
        have hkey : keyOf e = some (iden, domainOf e) := by simp [keyOf, hi]
        have hpair : pairOf e = some (cat, dateOf e) := by simp [pairOf, hc]
        by_cases hk : k = (iden, domainOf e)
        · subst hk
          rw [if_pos rfl]
          have hg : groupPairs (e :: rest) (iden, domainOf e)
              = (cat, dateOf e) :: groupPairs rest (iden, domainOf e) := by
            simp [groupPairs, groupOf, List.filter_cons, hkey, hpair]
          rw [hg]
          rfl
        · rw [if_neg hk]
          have hg : groupPairs (e :: rest) k = groupPairs rest k := by
            simp [groupPairs, groupOf, List.filter_cons, hkey, Ne.symm hk]
          rw [hg]

/-- aggFold counts one per payload. -/
theorem aggFold_count (ps : List (String × String)) : ∀ a : Agg,
    (aggFold a ps).count = a.count + ps.length := by
  induction ps with
  | nil => intro a; simp [aggFold]
  | cons p ps ih =>
    intro a
    show (aggFold (aggStep a p.1 p.2) ps).count = _
    rw [ih]
    simp [aggStep]
    omega

/-- membership in addCat. -/
theorem mem_addCat (cats : List String) (x c : String) :
    c ∈ addCat cats x ↔ c ∈ cats ∨ c = x := by
  unfold addCat
  by_cases h : x ∈ cats
  · rw [if_pos h]
    constructor
    · exact Or.inl
    · rintro (hc | rfl)
      · exact hc
      · exact h
  · rw [if_neg h]
    simp

/-- addCat keeps the label list duplicate free. -/
theorem addCat_nodup (cats : List String) (x : String) (h : cats.Nodup) :
    (addCat cats x).Nodup := by
  unfold addCat
  by_cases hx : x ∈ cats
  · rw [if_pos hx]; exact h
  · rw [if_neg hx]
    rw [List.nodup_append]
    refine ⟨h, by simp, ?_⟩
    intro y hy hy2
    simp only [List.mem_singleton] at hy2
    subst hy2
    exact hx hy

/-- aggFold collects exactly the payload categories into the label set. -/
theorem aggFold_cats_mem (ps : List (String × String)) : ∀ (a : Agg)
    (c : String),
    c ∈ (aggFold a ps).cats ↔ c ∈ a.cats ∨ c ∈ ps.map Prod.fst := by
  induction ps with
  | nil => intro a c; simp [aggFold]
  | cons p ps ih =>
    intro a c
    show c ∈ (aggFold (aggStep a p.1 p.2) ps).cats ↔ _
    rw [ih]
    simp only [aggStep, mem_addCat, List.map_cons, List.mem_cons]
    tauto

/-- aggFold keeps the label set duplicate free. -/
theorem aggFold_cats_nodup (ps : List (String × String)) : ∀ a : Agg,
    a.cats.Nodup → (aggFold a ps).cats.Nodup := by
  induction ps with
  | nil => intro a h; exact h
  | cons p ps ih =>
    intro a h
    exact ih (aggStep a p.1 p.2) (addCat_nodup a.cats p.1 h)

/-- aggFold ends at its start value or at one of the payload dates. -/
theorem aggFold_lastSeen_mem (ps : List (String × String)) : ∀ a : Agg,
    (aggFold a ps).lastSeen = a.lastSeen
      ∨ (aggFold a ps).lastSeen ∈ ps.map Prod.snd := by
  induction ps with
  | nil => intro a; exact Or.inl rfl
  | cons p ps ih =>
    intro a
    rcases ih (aggStep a p.1 p.2) with h | h
    · rw [show aggFold a (p :: ps) = aggFold (aggStep a p.1 p.2) ps from rfl, h]
      rcases maxDate_eq_or a.lastSeen p.2 with h2 | h2
      · exact Or.inl h2
      · exact Or.inr (by simp [aggStep] at h2 ⊢; exact Or.inl h2)
    · exact Or.inr (by simp; right; simpa using h)

/-- aggFold dominates its start value and every payload date. -/
theorem aggFold_lastSeen_ub (ps : List (String × String)) : ∀ a : Agg,
    a.lastSeen ≤ (aggFold a ps).lastSeen
    ∧ ∀ dt ∈ ps.map Prod.snd, dt ≤ (aggFold a ps).lastSeen := by
  induction ps with
  | nil => intro a; exact ⟨le_refl _, by simp⟩
  | cons p ps ih =>
    intro a
    obtain ⟨h1, h2⟩ := ih (aggStep a p.1 p.2)
    have hstep : (aggStep a p.1 p.2).lastSeen = maxDate a.lastSeen p.2 := rfl
    have ha : a.lastSeen ≤ (aggStep a p.1 p.2).lastSeen := by
      rw [hstep]; exact le_maxDate_left _ _
    have hb : p.2 ≤ (aggStep a p.1 p.2).lastSeen := by
      rw [hstep]; exact le_maxDate_right _ _
    constructor
    · exact le_trans ha h1
    · intro dt hdt
      simp only [List.map_cons, List.mem_cons] at hdt
      rcases hdt with rfl | hdt
      · exact le_trans hb h1
      · exact h2 dt hdt

/-- updInner leaves the key list unchanged or appends the new key. -/
theorem updInner_keys (dom c dt : String) (l : InnerMap) :
    (updInner dom c dt l).map Prod.fst
      = if dom ∈ l.map Prod.fst then l.map Prod.fst
        else l.map Prod.fst ++ [dom] := by
  induction l with
  | nil => simp [updInner]
  | cons p rest ih =>
    obtain ⟨d, a⟩ := p
    by_cases h : d = dom
    · subst h
      simp [updInner]
    · simp only [updInner, if_neg h, List.map_cons, ih, List.mem_cons]
      by_cases hm : dom ∈ rest.map Prod.fst
      · rw [if_pos hm, if_pos (Or.inr hm)]
      · rw [if_neg hm, if_neg (by rintro (hh | hh); exact h hh.symm; exact hm hh)]
        simp

/-- updOuter leaves the key list unchanged or appends the new key. -/
theorem updOuter_keys (iden dom c dt : String) (m : OuterMap) :
    (updOuter iden dom c dt m).map Prod.fst
      = if iden ∈ m.map Prod.fst then m.map Prod.fst
        else m.map Prod.fst ++ [iden] := by
  induction m with
  | nil => simp [updOuter]
  | cons p rest ih =>
    obtain ⟨k, inner⟩ := p
    by_cases h : k = iden
    · subst h
      simp [updOuter]
    · simp only [updOuter, if_neg h, List.map_cons, ih, List.mem_cons]
      by_cases hm : iden ∈ rest.map Prod.fst
      · rw [if_pos hm, if_pos (Or.inr hm)]
      · rw [if_neg hm, if_neg (by rintro (hh | hh); exact h hh.symm; exact hm hh)]
        simp

/-- appending a fresh key keeps a key list duplicate free. -/
theorem nodup_append_fresh {l : List String} {x : String}
    (h : l.Nodup) (hx : x ∉ l) : (l ++ [x]).Nodup := by
  rw [List.nodup_append]
  refine ⟨h, by simp, ?_⟩
  intro y hy hy2
  simp only [List.mem_singleton] at hy2
  subst hy2
  exact hx hy

/-- updInner keeps the inner key list duplicate free. -/
theorem updInner_nodup (dom c dt : String) (l : InnerMap)
    (h : (l.map Prod.fst).Nodup) :
    ((updInner dom c dt l).map Prod.fst).Nodup := by
  rw [updInner_keys]
  by_cases hm : dom ∈ l.map Prod.fst
  · rw [if_pos hm]; exact h
  · rw [if_neg hm]; exact nodup_append_fresh h hm

/-- every inner map of updOuter is an old inner map or an updInner of
one (or of the empty map), so inner key lists stay duplicate free. -/
theorem updOuter_inner_nodup (iden dom c dt : String) :
    ∀ m : OuterMap, (∀ p ∈ m, ((p.2.map Prod.fst).Nodup)) →
    ∀ p ∈ updOuter iden dom c dt m, ((p.2.map Prod.fst).Nodup)
  | [], _, p, hp => by
    simp only [updOuter, List.mem_singleton] at hp
    subst hp
    exact updInner_nodup dom c dt [] (by simp)
  | q :: rest, h, p, hp => by
    obtain ⟨k, inner⟩ := q
    by_cases hk : k = iden
    · subst hk
      have hshape : updOuter k dom c dt ((k, inner) :: rest)
          = (k, updInner dom c dt inner) :: rest := by
        simp [updOuter]
      rw [hshape] at hp
      rcases List.mem_cons.mp hp with heq | hp
      · rw [heq]
        exact updInner_nodup dom c dt inner (h (k, inner) (by simp))
      · exact h p (List.mem_cons_of_mem _ hp)
    · have hshape : updOuter iden dom c dt ((k, inner) :: rest)
          = (k, inner) :: updOuter iden dom c dt rest := by
        simp [updOuter, hk]
      rw [hshape] at hp
      rcases List.mem_cons.mp hp with heq | hp
      · rw [heq]
        exact h (k, inner) (by simp)
      · exact updOuter_inner_nodup iden dom c dt rest
          (fun q hq => h q (List.mem_cons_of_mem _ hq)) p hp

/-- updOuter preserves well-formedness. -/
theorem updOuter_WF (iden dom c dt : String) (m : OuterMap)
    (h : WFOuter m) : WFOuter (updOuter iden dom c dt m) := by
  constructor
  · rw [updOuter_keys]
    by_cases hm : iden ∈ m.map Prod.fst
    · rw [if_pos hm]; exact h.1
    · rw [if_neg hm]; exact nodup_append_fresh h.1 hm
  · exact updOuter_inner_nodup iden dom c dt m h.2

/-- buildMaps preserves well-formedness. -/
theorem buildMaps_WF : ∀ (events : List ActivityEvent) (m m2 : OuterMap),
    WFOuter m → buildMaps events m = some m2 → WFOuter m2
  | [], m, m2, hWF, h => by
    simp only [buildMaps, Option.some.injEq] at h
    subst h
    exact hWF
  | e :: rest, m, m2, hWF, h => by
    cases hi : identityOf e with
    | none => simp [buildMaps, hi] at h
    | some iden =>
      cases hc : categoryOf e with
      | none => simp [buildMaps, hi, hc] at h
      | some cat =>
        have h2 : buildMaps rest
            (updOuter iden (domainOf e) cat (dateOf e) m) = some m2 := by
          simpa [buildMaps, hi, hc] using h
        exact buildMaps_WF rest _ m2
          (updOuter_WF iden (domainOf e) cat (dateOf e) m hWF) h2

/-- every event a successful buildMaps run consumed had extractable
identity and category. -/
theorem buildMaps_events_ok : ∀ (events : List ActivityEvent) (m m2 : OuterMap),
    buildMaps events m = some m2 →
    ∀ e ∈ events, identityOf e ≠ none ∧ categoryOf e ≠ none
  | [], _, _, _, e, he => absurd he (by simp)
  | e0 :: rest, m, m2, h, e, he => by
    cases hi : identityOf e0 with
    | none => simp [buildMaps, hi] at h
    | some iden =>
      cases hc : categoryOf e0 with
      | none => simp [buildMaps, hi, hc] at h
      | some cat =>
        have h2 : buildMaps rest
            (updOuter iden (domainOf e0) cat (dateOf e0) m) = some m2 := by
          simpa [buildMaps, hi, hc] using h
        rcases List.mem_cons.mp he with rfl | he2
        · exact ⟨by simp [hi], by simp [hc]⟩
        · exact buildMaps_events_ok rest _ m2 h2 e he2

/-- lookupA finds a stored entry when the keys are duplicate free. -/
theorem lookupA_eq_some_of_mem {β : Type} :
    ∀ (l : List (String × β)), ((l.map Prod.fst).Nodup) →
    ∀ (k : String) (v : β), (k, v) ∈ l → lookupA l k = some v
  | [], _, k, v, hm => absurd hm (by simp)
  | (k1, v1) :: rest, hnd, k, v, hm => by
    rcases List.mem_cons.mp hm with heq | hm2
    · obtain ⟨h1, h2⟩ := Prod.mk.injEq .. |>.mp heq.symm
      subst h1
      subst h2
      simp [lookupA]
    · have hk1 : k1 ≠ k := by
        intro hk
        subst hk
        have hmem : k1 ∈ rest.map Prod.fst :=
          List.mem_map.mpr ⟨(k1, v), hm2, rfl⟩
        exact (List.nodup_cons.mp (by simpa using hnd)).1 hmem
      simp only [lookupA, if_neg hk1]
      exact lookupA_eq_some_of_mem rest
        (List.nodup_cons.mp (by simpa using hnd)).2 k v hm2

/-- a successful lookupA comes from a stored entry. -/
theorem mem_of_lookupA_eq_some {β : Type} :
    ∀ (l : List (String × β)) (k : String) (v : β),
    lookupA l k = some v → (k, v) ∈ l
  | [], k, v, h => by simp [lookupA] at h
  | (k1, v1) :: rest, k, v, h => by
    by_cases hk : k1 = k
    · subst hk
      simp [lookupA] at h
      subst h
      exact List.mem_cons_self _ _
    · simp only [lookupA, if_neg hk] at h
      exact List.mem_cons_of_mem _ (mem_of_lookupA_eq_some rest k v h)

/-- a row is emitted exactly for a stored (identity, domain) entry. -/
theorem mem_rowsOf (m : OuterMap) (r : ActivityRow) :
    r ∈ rowsOf m ↔ ∃ inner, (r.identity, inner) ∈ m
      ∧ (r.domain, Agg.mk r.count r.category r.lastSeen) ∈ inner := by
  simp only [rowsOf, List.mem_flatMap, List.mem_map]
  constructor
  · rintro ⟨p, hp, q, hq, rfl⟩
    exact ⟨p.2, hp, hq⟩
  · rintro ⟨inner, hm, hq⟩
    exact ⟨(r.identity, inner), hm,
      (r.domain, Agg.mk r.count r.category r.lastSeen), hq, rfl⟩

/-- with duplicate-free keys, row membership is exactly a lookup2 hit. -/
theorem rowsOf_lookup (m : OuterMap) (hWF : WFOuter m) (r : ActivityRow) :
    r ∈ rowsOf m
      ↔ lookup2 m (r.identity, r.domain)
          = some (Agg.mk r.count r.category r.lastSeen) := by
  rw [mem_rowsOf]
  constructor
  · rintro ⟨inner, hm, hq⟩
    have h1 : lookupA m r.identity = some inner :=
      lookupA_eq_some_of_mem m hWF.1 _ _ hm
    have h2 : lookupA inner r.domain
        = some (Agg.mk r.count r.category r.lastSeen) :=
      lookupA_eq_some_of_mem inner (hWF.2 _ hm) _ _ hq
    simp [lookup2, h1, h2]
  · intro h
    simp only [lookup2] at h
    cases hA : lookupA m r.identity with
    | none => rw [hA] at h; simp at h
    | some inner =>
      rw [hA] at h
      simp only [Option.some_bind] at h
      exact ⟨inner, mem_of_lookupA_eq_some _ _ _ hA,
        mem_of_lookupA_eq_some _ _ _ h⟩

/-- with duplicate-free keys the emitted (identity, domain) pairs are
pairwise distinct: exactly one row per key. -/
theorem rowsOf_keys_nodup (m : OuterMap) (hWF : WFOuter m) :
    ((rowsOf m).map fun r => (r.identity, r.domain)).Nodup := by
  have hrw : (rowsOf m).map (fun r => (r.identity, r.domain))
      = m.flatMap fun p => p.2.map fun q => (p.1, q.1) := by
    simp only [rowsOf, List.map_flatMap, List.map_map]
    rfl
  rw [hrw, List.nodup_flatMap]
  constructor
  · intro p hp
    have hinner := hWF.2 p hp
    have hrw2 : (p.2.map fun q => (p.1, q.1))
        = (p.2.map Prod.fst).map (fun d => (p.1, d)) := by
      simp only [List.map_map]
      rfl
    rw [hrw2]
    exact List.Nodup.map (fun a b hab => congrArg Prod.snd hab) hinner
  · have hpw : m.Pairwise (fun a b => a.1 ≠ b.1) :=
      List.pairwise_map.mp hWF.1
    refine hpw.imp ?_
    intro a b hne x hx hy
    obtain ⟨qa, _, hxa⟩ := List.mem_map.mp hx
    obtain ⟨qb, _, hxb⟩ := List.mem_map.mp hy
    rw [← hxa] at hxb
    exact hne ((Prod.mk.injEq _ _ _ _).mp hxb.symm).1

/-- on a list whose events all carry a category, the payload list lines
up with the category and date projections, one payload per event. -/
theorem pairs_props :
    ∀ l : List ActivityEvent, (∀ e ∈ l, categoryOf e ≠ none) →
    ((l.filterMap pairOf).map Prod.fst = l.filterMap categoryOf)
    ∧ ((l.filterMap pairOf).map Prod.snd = l.map dateOf)
    ∧ (l.filterMap pairOf).length = l.length
  | [], _ => by simp
  | e :: rest, hok => by
    cases hc : categoryOf e with
    | none => exact absurd hc (hok e (by simp))
    | some c =>
      have hpair : pairOf e = some (c, dateOf e) := by simp [pairOf, hc]
      have ih := pairs_props rest (fun x hx => hok x (by simp [hx]))
      simp only [List.filterMap_cons, hpair, hc, List.map_cons, List.length_cons]
      exact ⟨by rw [ih.1], by rw [ih.2.1], by rw [ih.2.2]⟩

/-- no string is strictly below the empty string. -/
theorem not_lt_empty (s : String) : ¬ s < "" := by
  rw [String.lt_iff_toList_lt, String.toList_empty]
  generalize s.toList = xs
  intro h
  cases h

/-- the group of a key consists of events of the list. -/
theorem groupOf_subset (events : List ActivityEvent) (k : String × String)
    (e : ActivityEvent) (he : e ∈ groupOf events k) :
    e ∈ events ∧ keyOf e = some k := by
  have h := List.mem_filter.mp he
  exact ⟨h.1, by simpa using h.2⟩

/-- conversely, an event of the list with the key is in the group. -/
theorem mem_groupOf (events : List ActivityEvent) (k : String × String)
    (e : ActivityEvent) (he : e ∈ events) (hk : keyOf e = some k) :
    e ∈ groupOf events k :=
  List.mem_filter.mpr ⟨he, by simpa using hk⟩

/-- groupPairs unfolded. -/
theorem groupPairs_def (events : List ActivityEvent) (k : String × String) :
    groupPairs events k = (groupOf events k).filterMap pairOf := rfl

/-- master specification of the activity shaper: one row per distinct
(identity, domain) key of the input, counting the group, collecting the
distinct category labels, and keeping the lexicographically largest date
string of the group. -/
theorem present_activity_props (events : List ActivityEvent)
    (rows : List ActivityRow) (h : present_activity events = some rows) :
    ((rows.map fun r => (r.identity, r.domain)).Nodup)
    ∧ (∀ k : String × String,
        (k ∈ rows.map fun r => (r.identity, r.domain))
          ↔ ∃ e ∈ events, keyOf e = some k)
    ∧ (∀ r ∈ rows,
        r.count = (groupOf events (r.identity, r.domain)).length
        ∧ r.category.Nodup
        ∧ (∀ c, c ∈ r.category
            ↔ c ∈ (groupOf events (r.identity, r.domain)).filterMap categoryOf)
        ∧ r.lastSeen ∈ (groupOf events (r.identity, r.domain)).map dateOf
        ∧ (∀ dt ∈ (groupOf events (r.identity, r.domain)).map dateOf,
            dt ≤ r.lastSeen)) := by
  simp only [present_activity] at h
  cases hB : buildMaps events [] with
  | none => rw [hB] at h; simp at h
  | some m =>
    rw [hB] at h
    have hr : rowsOf m = rows := by simpa using h
    subst hr
    have hWF : WFOuter m := buildMaps_WF events [] m ⟨by simp, by simp⟩ hB
    have hok := buildMaps_events_ok events [] m hB
    have hlook : ∀ k, lookup2 m k = applyGroup none (groupPairs events k) := by
      intro k
      have hl := buildMaps_lookup events [] m hB k
      rw [show lookup2 ([] : OuterMap) k = none from rfl] at hl
      exact hl
    have hgok : ∀ (k : String × String), ∀ e ∈ groupOf events k,
        categoryOf e ≠ none := by
      intro k e he
      exact (hok e (groupOf_subset events k e he).1).2
    have hpp := fun k => pairs_props (groupOf events k) (hgok k)
    have hempiff : ∀ k : String × String,
        (groupPairs events k).isEmpty = true ↔ groupOf events k = [] := by
      intro k
      rw [List.isEmpty_iff]
      constructor
      · intro hnil
        have hlen := (hpp k).2.2
        rw [show groupPairs events k
            = (groupOf events k).filterMap pairOf from rfl] at hnil
        rw [hnil] at hlen
        exact List.length_eq_zero.mp hlen.symm
      · intro hnil
        show (groupOf events k).filterMap pairOf = []
        rw [hnil]
        rfl
    refine ⟨rowsOf_keys_nodup m hWF, ?_, ?_⟩
    · intro k
      constructor
      · intro hkmem
        obtain ⟨r, hrr, hkey⟩ := List.mem_map.mp hkmem
        have hl2 := (rowsOf_lookup m hWF r).mp hrr
        rw [hkey] at hl2
        rw [hlook k, applyGroup_none] at hl2
        by_cases hemp : (groupPairs events k).isEmpty
        · rw [if_pos hemp] at hl2
          exact absurd hl2 (by simp)
        · have hgne : groupOf events k ≠ [] := by
            intro hnil
            exact hemp ((hempiff k).mpr hnil)
          obtain ⟨e, he⟩ := List.exists_mem_of_ne_nil _ hgne
          have hsub := groupOf_subset events k e he
          exact ⟨e, hsub.1, hsub.2⟩
      · rintro ⟨e, he, hke⟩
        have hgne : groupOf events k ≠ [] := by
          intro hnil
          have hmem := mem_groupOf events k e he hke
          rw [hnil] at hmem
          exact absurd hmem (by simp)
        have hpne : ¬ (groupPairs events k).isEmpty = true := by
          intro hemp2
          exact hgne ((hempiff k).mp hemp2)
        have hl2 : lookup2 m k
            = some (aggFold emptyAgg (groupPairs events k)) := by
          rw [hlook k, applyGroup_none, if_neg hpne]
        have hrmem : (ActivityRow.mk k.1 k.2
            (aggFold emptyAgg (groupPairs events k)).count
            (aggFold emptyAgg (groupPairs events k)).cats
            (aggFold emptyAgg (groupPairs events k)).lastSeen) ∈ rowsOf m := by
          rw [rowsOf_lookup m hWF]
          exact hl2
        exact List.mem_map.mpr ⟨_, hrmem, rfl⟩
    · intro r hrr
      have hl2 := (rowsOf_lookup m hWF r).mp hrr
      rw [hlook _, applyGroup_none] at hl2
      by_cases hemp : (groupPairs events (r.identity, r.domain)).isEmpty
      · rw [if_pos hemp] at hl2
        exact absurd hl2 (by simp)
      rw [if_neg hemp] at hl2
      have hagg : aggFold emptyAgg (groupPairs events (r.identity, r.domain))
          = Agg.mk r.count r.category r.lastSeen := by
        simpa using hl2
      have hpp2 := hpp (r.identity, r.domain)
      have hppfst := hpp2.1
      have hppsnd := hpp2.2.1
      have hpplen := hpp2.2.2
      refine ⟨?_, ?_, ?_, ?_, ?_⟩
      · have hc := aggFold_count (groupPairs events (r.identity, r.domain)) emptyAgg
        rw [hagg] at hc
        have hc2 : r.count = (groupPairs events (r.identity, r.domain)).length := by
          simpa [emptyAgg] using hc
        rw [hc2, groupPairs_def, hpplen]
      · have hn := aggFold_cats_nodup (groupPairs events (r.identity, r.domain))
          emptyAgg (by simp [emptyAgg])
        rw [hagg] at hn
        exact hn
      · intro c
        have hm2 := aggFold_cats_mem (groupPairs events (r.identity, r.domain))
          emptyAgg c
        rw [hagg] at hm2
        rw [show (Agg.mk r.count r.category r.lastSeen).cats = r.category
          from rfl] at hm2
        rw [hm2, show groupPairs events (r.identity, r.domain)
            = (groupOf events (r.identity, r.domain)).filterMap pairOf from rfl,
          hppfst]
        simp [emptyAgg]
      · have hm2 := aggFold_lastSeen_mem
          (groupPairs events (r.identity, r.domain)) emptyAgg
        rw [hagg] at hm2
        rcases hm2 with hm2 | hm2
        · have hlast : r.lastSeen = "" := hm2
          have hpairsne : groupPairs events (r.identity, r.domain) ≠ [] := by
            intro hnil
            exact hemp (by rw [List.isEmpty_iff]; exact hnil)
          obtain ⟨p0, hp0⟩ := List.exists_mem_of_ne_nil _ hpairsne
          have hub := (aggFold_lastSeen_ub
            (groupPairs events (r.identity, r.domain)) emptyAgg).2 p0.2
            (List.mem_map.mpr ⟨p0, hp0, rfl⟩)
          rw [hagg] at hub
          have hle : p0.2 ≤ "" := hlast ▸ hub
          have hge : "" ≤ p0.2 := le_of_not_lt (not_lt_empty p0.2)
          have hp02 : p0.2 = "" := le_antisymm hle hge
          have hfin : r.lastSeen
              ∈ (groupPairs events (r.identity, r.domain)).map Prod.snd := by
            rw [hlast, ← hp02]
            exact List.mem_map.mpr ⟨p0, hp0, rfl⟩
          rw [groupPairs_def, hppsnd] at hfin
          exact hfin
        · rw [groupPairs_def, hppsnd] at hm2
          exact hm2
      · intro dt hdt
        have hub := (aggFold_lastSeen_ub
          (groupPairs events (r.identity, r.domain)) emptyAgg).2 dt
          (by rw [groupPairs_def, hppsnd]; exact hdt)
        rw [hagg] at hub
        exact hub

/-- truncation does not change the extracted identity. -/
theorem identityOf_firstOnly (e : ActivityEvent) :
    identityOf (firstOnly e) = identityOf e := by
  cases h : e.identities with
  | none => simp [identityOf, firstOnly, h]
  | some ls => cases ls <;> simp [identityOf, firstOnly, h]

/-- truncation does not change the extracted category. -/
theorem categoryOf_firstOnly (e : ActivityEvent) :
    categoryOf (firstOnly e) = categoryOf e := by
  cases h : e.policycategories with
  | none => simp [categoryOf, firstOnly, h]
  | some ls => cases ls <;> simp [categoryOf, firstOnly, h]

/-- the aggregation maps only ever read the first identity and the first
category of an event, so truncating the arrays changes nothing. -/
theorem buildMaps_firstOnly : ∀ (events : List ActivityEvent) (m : OuterMap),
    buildMaps (events.map firstOnly) m = buildMaps events m
  | [], _ => rfl
  | e :: rest, m => by
    cases hi : identityOf e with
    | none =>
      simp [buildMaps, identityOf_firstOnly, hi]
    | some iden =>
      cases hc : categoryOf e with
      | none =>
        simp [buildMaps, identityOf_firstOnly, categoryOf_firstOnly, hi, hc]
      | some cat =>
        simp only [List.map_cons, buildMaps, identityOf_firstOnly,
          categoryOf_firstOnly, hi, hc]
        rw [show domainOf (firstOnly e) = domainOf e from rfl,
          show dateOf (firstOnly e) = dateOf e from rfl]
        exact buildMaps_firstOnly rest _

/-- C3: activity shaping groups all input events by (identity, domain)
with the documented defaults, and produces exactly one output row per
distinct pair, counting the group, collecting the set of distinct policy
category labels (the comma join of the code is over this set), and keeping
the lexicographically maximum date string of the group. -/
theorem C3_activity_grouping (events : List ActivityEvent)
    (rows : List ActivityRow) (h : present_activity events = some rows) :
    ((rows.map fun r => (r.identity, r.domain)).Nodup)
    ∧ (∀ k : String × String,
        (k ∈ rows.map fun r => (r.identity, r.domain))
          ↔ ∃ e ∈ events, keyOf e = some k)
    ∧ (∀ r ∈ rows,
        r.count = (groupOf events (r.identity, r.domain)).length
        ∧ r.category.Nodup
        ∧ (∀ c, c ∈ r.category
            ↔ c ∈ (groupOf events (r.identity, r.domain)).filterMap categoryOf)
        ∧ r.lastSeen ∈ (groupOf events (r.identity, r.domain)).map dateOf
        ∧ (∀ dt ∈ (groupOf events (r.identity, r.domain)).map dateOf,
            dt ≤ r.lastSeen)) :=
  present_activity_props events rows h

/-- Witness for C3_activity_grouping at the two-event example of the
spec. -/
theorem C3_activity_grouping_witness :
    ((⟨"alice", "example.com", 2, ["Malware", "Phishing"],
        "2024-01-05"⟩ : ActivityRow).count
      = (groupOf
          [⟨some ["alice"], some "example.com", some ["Malware"],
             some "2024-01-01"⟩,
           ⟨some ["alice"], some "example.com", some ["Phishing"],
             some "2024-01-05"⟩]
          ("alice", "example.com")).length)
    ∧ (("alice", "example.com")
        ∈ ([⟨"alice", "example.com", 2, ["Malware", "Phishing"],
             "2024-01-05"⟩] : List ActivityRow).map
            fun r => (r.identity, r.domain)) := by
  have h := C3_activity_grouping
    [⟨some ["alice"], some "example.com", some ["Malware"], some "2024-01-01"⟩,
     ⟨some ["alice"], some "example.com", some ["Phishing"], some "2024-01-05"⟩]
    [⟨"alice", "example.com", 2, ["Malware", "Phishing"], "2024-01-05"⟩]
    (by decide)
  exact ⟨(h.2.2 _ (by decide)).1,
    (h.2.1 ("alice", "example.com")).mpr
      ⟨⟨some ["alice"], some "example.com", some ["Malware"], some "2024-01-01"⟩,
        by decide, by decide⟩⟩

/-- C9: only the first entry of the identities array and the first entry
of the policycategories array are consulted: truncating every event to
those first entries leaves the shaped output unchanged, and every value
appearing in a row identity or category field is a default or the first
entry of some event. -/
theorem C9_first_entries_only (events : List ActivityEvent)
    (rows : List ActivityRow) (h : present_activity events = some rows) :
    present_activity (events.map firstOnly) = some rows
    ∧ ∀ r ∈ rows,
        (r.identity = "Unknown"
          ∨ ∃ e ∈ events, ∃ ls, e.identities = some ls
              ∧ ls.head? = some r.identity)
        ∧ ∀ c ∈ r.category,
            (c = "N/A"
              ∨ ∃ e ∈ events, ∃ ls, e.policycategories = some ls
                  ∧ ls.head? = some c) := by
  have hprops := present_activity_props events rows h
  constructor
  · rw [present_activity, buildMaps_firstOnly]
    exact h
  · intro r hr
    constructor
    · have hk : (r.identity, r.domain)
          ∈ rows.map fun r => (r.identity, r.domain) :=
        List.mem_map.mpr ⟨r, hr, rfl⟩
      obtain ⟨e, he, hke⟩ := (hprops.2.1 _).mp hk
      have hid : identityOf e = some r.identity := by
        cases hi : identityOf e with
        | none => rw [keyOf, hi] at hke; simp at hke
        | some i =>
          rw [keyOf, hi] at hke
          simp at hke
          rw [hke.1]
      cases hids : e.identities with
      | none =>
        left
        have hu : identityOf e = some "Unknown" := by simp [identityOf, hids]
        rw [hu] at hid
        exact (Option.some.injEq _ _ |>.mp hid).symm
      | some ls =>
        right
        exact ⟨e, he, ls, hids, by simpa [identityOf, hids] using hid⟩
    · intro c hc
      have hcm := ((hprops.2.2 r hr).2.2.1 c).mp hc
      obtain ⟨e, he, hce⟩ := List.mem_filterMap.mp hcm
      have hee := groupOf_subset events _ e he
      cases hcs : e.policycategories with
      | none =>
        left
        have := hce
        simp only [categoryOf, hcs, Option.some.injEq] at this
        exact this.symm
      | some ls =>
        right
        exact ⟨e, hee.1, ls, hcs, by simpa [categoryOf, hcs] using hce⟩

/-- Witness for C9_first_entries_only: an event with two identities and
two categories shapes the same as its truncation. -/
theorem C9_first_entries_only_witness :
    present_activity
      ([⟨some ["alice", "bob"], some "x.com", some ["Malware", "Phishing"],
          some "2024-01-01"⟩].map firstOnly)
      = some [⟨"alice", "x.com", 1, ["Malware"], "2024-01-01"⟩] :=
  (C9_first_entries_only
    [⟨some ["alice", "bob"], some "x.com", some ["Malware", "Phishing"],
       some "2024-01-01"⟩]
    [⟨"alice", "x.com", 1, ["Malware"], "2024-01-01"⟩] (by decide)).1

/-- C10: an event with no date field contributes the literal string N/A,
which compares lexicographically greater than every digit-leading
timestamp string, so a group holding one dateless event reports N/A as its
last-seen value whatever the real dates of its other events are. -/
theorem C10_dateless_event (events : List ActivityEvent)
    (rows : List ActivityRow) (h : present_activity events = some rows)
    (i d : String)
    (hmiss : ∃ e ∈ events, keyOf e = some (i, d) ∧ e.date = none)
    (hdigits : ∀ e ∈ events, keyOf e = some (i, d) →
        ∀ s, e.date = some s → digitLeading s = true) :
    (∀ s : String, digitLeading s = true → s < "N/A")
    ∧ ∀ r ∈ rows, r.identity = i → r.domain = d → r.lastSeen = "N/A" := by
  have hprops := present_activity_props events rows h
  have hdig : ∀ s : String, digitLeading s = true → s < "N/A" := by
    intro s hs
    cases hsd : s.data with
    | nil => simp [digitLeading, hsd] at hs
    | cons c cs =>
      have hcd : c.isDigit = true := by simpa [digitLeading, hsd] using hs
      rw [String.lt_iff_toList_lt]
      rw [show s.toList = s.data from rfl, hsd,
        show ("N/A" : String).toList = ['N', '/', 'A'] from rfl]
      apply List.Lex.rel
      have h9 : c ≤ '9' := by
        simp only [Char.isDigit, Bool.and_eq_true, decide_eq_true_eq] at hcd
        exact hcd.2
      exact lt_of_le_of_lt h9 (by decide)
  refine ⟨hdig, ?_⟩
  intro r hr hri hrd
  obtain ⟨e0, he0, hk0, hd0⟩ := hmiss
  have hrk : (r.identity, r.domain) = (i, d) := by rw [hri, hrd]
  have hprops3 := hprops.2.2 r hr
  have hmem := hprops3.2.2.2.1
  have hub := hprops3.2.2.2.2
  have hNA : "N/A" ∈ (groupOf events (r.identity, r.domain)).map dateOf := by
    apply List.mem_map.mpr
    refine ⟨e0, mem_groupOf events _ e0 he0 (by rw [hrk]; exact hk0), ?_⟩
    simp [dateOf, hd0]
  have h1 : "N/A" ≤ r.lastSeen := hub _ hNA
  obtain ⟨e1, he1, hde1⟩ := List.mem_map.mp hmem
  have he1sub := groupOf_subset events _ e1 he1
  have h2 : r.lastSeen ≤ "N/A" := by
    cases hdd : e1.date with
    | none =>
      rw [← hde1]
      simp [dateOf, hdd]
    | some sv =>
      have hdigs := hdigits e1 he1sub.1 (by rw [← hrk]; exact he1sub.2) sv hdd
      have hlt := hdig sv hdigs
      rw [← hde1, show dateOf e1 = sv from by simp [dateOf, hdd]]
      exact le_of_lt hlt
  exact le_antisymm h2 h1

/-- Witness for C10_dateless_event: a group with one dateless and one
dated event reports N/A. -/
theorem C10_dateless_event_witness :
    ("2024-01-01" < "N/A")
    ∧ ((⟨"a", "d.com", 2, ["C"], "N/A"⟩ : ActivityRow).lastSeen = "N/A") := by
  have h := C10_dateless_event
    [⟨some ["a"], some "d.com", some ["C"], none⟩,
     ⟨some ["a"], some "d.com", some ["C"], some "2024-01-01"⟩]
    [⟨"a", "d.com", 2, ["C"], "N/A"⟩] (by decide) "a" "d.com"
    ⟨⟨some ["a"], some "d.com", some ["C"], none⟩, by decide, by decide, rfl⟩
    (by decide)
  exact ⟨h.1 "2024-01-01" (by decide),
    h.2 ⟨"a", "d.com", 2, ["C"], "N/A"⟩ (by decide) rfl rfl⟩

/-- Counterexample to C1 as stated: a deployment run does query the
categories endpoint (and builds the filter string), because main calls
get_security_category_ids before branching on the report type. -/
theorem C1_deployment_queries_categories :
    mainRequests "deployment" "-7days" "now" none
        (⟨[⟨5, "Malware", "security"⟩], [[]]⟩ : Env Nat)
      = [Endpoint.categories,
         Endpoint.deploymentStatus "from=-7days&to=now&limit=100&offset=0"]
    ∧ Endpoint.categories ∈ mainRequests "deployment" "-7days" "now" none
        (⟨[⟨5, "Malware", "security"⟩], [[]]⟩ : Env Nat) := by
  constructor
  · decide
  · decide

/-- C1 amended: the taxonomy is fetched exactly once on every run, as the
first request, whatever the report type; on an activity run every page
request is an activity endpoint whose params string ends with the
categories= parameter built from the security category IDs. -/
theorem C1_taxonomy_every_run {α : Type}
    (report_type from_date to_date : String) (verdict : Option String)
    (env : Env α) :
    ((mainRequests report_type from_date to_date verdict env).count
        Endpoint.categories = 1)
    ∧ ((mainRequests report_type from_date to_date verdict env).head?
        = some Endpoint.categories)
    ∧ (report_type = "activity" →
        ∀ ep ∈ mainRequests report_type from_date to_date verdict env,
          ep ≠ Endpoint.categories →
          ∃ pre, ep = Endpoint.activity
            (pre ++ ("&categories=" ++ securityFilter env.categories))) := by
  have hcount : ∀ (mk : Nat → Endpoint),
      (∀ off : Nat, mk off ≠ Endpoint.categories) →
      (Endpoint.categories :: (paginate 100 env.pages 0).2.map mk).count
        Endpoint.categories = 1 := by
    intro mk hmk
    rw [List.count_cons_self]
    have hzero : ((paginate 100 env.pages 0).2.map mk).count
        Endpoint.categories = 0 := by
      rw [List.count_eq_zero]
      intro hmem
      obtain ⟨off, _, hoff⟩ := List.mem_map.mp hmem
      exact hmk off hoff
    rw [hzero]
  by_cases hdep : report_type = "deployment"
  · simp only [mainRequests, if_pos hdep]
    refine ⟨hcount _ (fun off => by simp), rfl, ?_⟩
    intro hact
    rw [hdep] at hact
    exact absurd hact (by decide)
  · by_cases hact : report_type = "activity"
    · simp only [mainRequests, if_neg hdep, if_pos hact]
      refine ⟨hcount _ (fun off => by simp), rfl, ?_⟩
      intro _ ep hep hne
      rcases List.mem_cons.mp hep with heq | hmem
      · exact absurd heq hne
      · obtain ⟨off, _, hoff⟩ := List.mem_map.mp hmem
        exact ⟨if verdictTruthy verdict then
            reportParams from_date to_date 100 off
              ++ ("&verdict=" ++ verdict.getD "")
          else reportParams from_date to_date 100 off, hoff.symm⟩
    · simp only [mainRequests, if_neg hdep, if_neg hact]
      refine ⟨by decide, rfl, fun h => absurd h hact⟩

/-- Witness for C1_taxonomy_every_run on concrete activity and deployment
runs. -/
theorem C1_taxonomy_every_run_witness :
    ((mainRequests "activity" "-7days" "now" none
        (⟨[⟨5, "Malware", "security"⟩], [[]]⟩ : Env Nat)).count
          Endpoint.categories = 1)
    ∧ ((mainRequests "deployment" "-7days" "now" none
        (⟨[⟨5, "Malware", "security"⟩], [[]]⟩ : Env Nat)).count
          Endpoint.categories = 1)
    ∧ (Endpoint.activity ("from=-7days&to=now&limit=100&offset=0"
        ++ ("&categories=" ++ securityFilter [⟨5, "Malware", "security"⟩]))
        ∈ mainRequests "activity" "-7days" "now" none
            (⟨[⟨5, "Malware", "security"⟩], [[]]⟩ : Env Nat)) := by
  have h1 := C1_taxonomy_every_run (α := Nat) "activity" "-7days" "now" none
    ⟨[⟨5, "Malware", "security"⟩], [[]]⟩
  have h2 := C1_taxonomy_every_run (α := Nat) "deployment" "-7days" "now" none
    ⟨[⟨5, "Malware", "security"⟩], [[]]⟩
  have _h3 := h1.2.2 rfl
  exact ⟨h1.1, h2.1, by decide⟩

example : is_relative_date "1700000000" = false := by decide

example : check_date 1700000000 "1699999999" = some "1699999999" := by decide

example : check_date 1700000000 "1700000001" = none := by decide

example : check_date 1700000000 "garbage" = none := by decide

example : (validate_dates "-1days" "now").isOk = true := by decide

example : (validate_dates "-1days" "1700000000").isOk = false := by decide

example : (validate_verdict (some "Allowed, BLOCKED")).isOk = true := by decide

example : (validate_verdict (some "allow")).isOk = false := by decide

end Umbrella
